import Mathlib

/-!
# Verification of the `util` iteration library (`range.hpp`, `zip.hpp`)

Shallow embedding of the two adapters:

* `Range` / `Range::Iterator` from `range.hpp`: an iterator holds a current
  value `_val` and a step `_pace`; `+= n` adds `n * _pace`, `-= n` subtracts
  `n * _pace`, equality compares `_val` only.  The integer template parameter
  is modelled by `Int` (exact integer arithmetic, the semantics the generic
  template exposes for a signed integer instantiation).

* `zip_iterator` / `zip_impl` from `zip.hpp`: a zip iterator is the tuple of
  the wrapped sequences' own iterators.  Sequence iterators are modelled by
  positions into the sequence, so a zip iterator state is a list of positions
  (one per wrapped sequence, `Int`-valued so that decrement is unrestricted,
  as for the C++ sub-iterators).  `operator==` is the short-circuiting OR of
  per-index sub-iterator equality (template recursion with base case `false`),
  the public `operator!=` is its boolean negation, `operator+=` advances each
  component, `operator-=` is `n` repeated whole-iterator decrements.

Loops driven by the `begin()/end()/++/!=` protocol are embedded as
fuel-indexed runners returning `Option`: `none` means the fuel was exhausted
before the iterator compared equal to the sentinel (or, for the element
collecting runner, that a sub-iterator was dereferenced out of range, which
is undefined behaviour in the C++ source).
-/

namespace util

/-- `Range<IntegerType>::Iterator` (range.hpp, lines 26-49): current value
`_val` and step `_pace`. -/
structure RangeIterator where
  val : Int
  pace : Int
  deriving DecidableEq, Repr

/-- `operator*` (range.hpp, lines 33-34): dereference yields the current
value (the mutable overload returns a reference to `_val`, the const one a
copy; both denote the current value). -/
def itDeref (it : RangeIterator) : Int :=
  it.val

/-- `operator+=(n)` (range.hpp, line 35): `_val += n * _pace`. -/
def itAdd (it : RangeIterator) (n : Nat) : RangeIterator :=
  ⟨it.val + n * it.pace, it.pace⟩

/-- Prefix `operator++` (range.hpp, line 36): `return (*this) += 1`. -/
def itInc (it : RangeIterator) : RangeIterator :=
  itAdd it 1

/-- Postfix `operator++(int)` (range.hpp, line 37): copies `*this` into
`tmp`, increments `*this`, returns `tmp`.  Embedded as the pair
(returned iterator, new state of the operand). -/
def itPostInc (it : RangeIterator) : RangeIterator × RangeIterator :=
  (it, itInc it)

/-- `operator-=(n)` (range.hpp, line 39): `_val -= n * _pace`. -/
def itSub (it : RangeIterator) (n : Nat) : RangeIterator :=
  ⟨it.val - n * it.pace, it.pace⟩

/-- Prefix `operator--` (range.hpp, line 40): `return *this -= 1`. -/
def itDec (it : RangeIterator) : RangeIterator :=
  itSub it 1

/-- Postfix `operator--(int)` (range.hpp, line 41): returns the old state,
leaves the operand decremented. -/
def itPostDec (it : RangeIterator) : RangeIterator × RangeIterator :=
  (it, itDec it)

/-- `operator==` (range.hpp, line 43): compares `_val` only. -/
def itEq (a b : RangeIterator) : Bool :=
  a.val == b.val

/-- `operator!=` (range.hpp, line 44): `!(*this == o)`. -/
def itNe (a b : RangeIterator) : Bool :=
  !(itEq a b)

/-- `Range<IntegerType>` (range.hpp, lines 18-97): `_start`, `_end`, `_pace`.
(`stop` stands for the C++ field `_end`; `end` is a Lean keyword.) -/
structure Range where
  start : Int
  stop : Int
  pace : Int
  deriving DecidableEq, Repr

/-- `range(start, end, pace)` factory (range.hpp, lines 99-102). -/
def range (start stop pace : Int) : Range :=
  ⟨start, stop, pace⟩

/-- `range(end)` factory overload (range.hpp, lines 104-107):
`Range(0, end, 1)`. -/
def rangeFromZero (stop : Int) : Range :=
  ⟨0, stop, 1⟩

/-- `Range::begin` (range.hpp, lines 74-76): `Iterator{_start, _pace}`. -/
def rangeBegin (r : Range) : RangeIterator :=
  ⟨r.start, r.pace⟩

/-- `Range::end` (range.hpp, lines 82-84): `Iterator{_end, _pace}`. -/
def rangeEnd (r : Range) : RangeIterator :=
  ⟨r.stop, r.pace⟩

/-- `Range::rbegin` (range.hpp, lines 90-92): `return --end();`. -/
def rangeRbegin (r : Range) : RangeIterator :=
  itDec (rangeEnd r)

/-- `Range::rend` (range.hpp, lines 94-96): `return --begin();`. -/
def rangeRend (r : Range) : RangeIterator :=
  itDec (rangeBegin r)

/-- The `begin()/end()/++/!=` ranged-for protocol on a `Range` iterator:
while `it != sentinel`, record `*it` and apply prefix `++`.  Fuel-indexed;
`none` means the fuel ran out before `it == sentinel` held. -/
def runFwd : Nat → RangeIterator → RangeIterator → Option (List Int)
  | 0, _, _ => none
  | fuel + 1, it, sentinel =>
    if itEq it sentinel then some []
    else (runFwd fuel (itInc it) sentinel).map (fun L => itDeref it :: L)

/-- The same driving protocol but stepping with prefix `--` (the decrement
protocol), used for the `rbegin()/rend()` traversal. -/
def runBwd : Nat → RangeIterator → RangeIterator → Option (List Int)
  | 0, _, _ => none
  | fuel + 1, it, sentinel =>
    if itEq it sentinel then some []
    else (runBwd fuel (itDec it) sentinel).map (fun L => itDeref it :: L)

/-- `zip_iterator::operator==<Idx>` (zip.hpp, lines 202-212): equal iff the
sub-iterators at some index are equal — a short-circuiting OR over the
indices, base case `false`.  Sub-iterators are modelled by `Int` positions. -/
def zipEq : List Int → List Int → Bool
  | a :: as, b :: bs => (a == b) || zipEq as bs
  | _, _ => false

/-- Public `zip_iterator::operator!=` (zip.hpp, lines 155-157):
`! operator==<0, Args...>(other)`. -/
def zipNe (p q : List Int) : Bool :=
  !(zipEq p q)

/-- Private `zip_iterator::operator!=<Idx>` (zip.hpp, lines 190-200): the
AND over indices of per-index inequality, base case `true`. -/
def zipNeRec : List Int → List Int → Bool
  | a :: as, b :: bs => (a != b) && zipNeRec as bs
  | _, _ => true

/-- `zip_iterator::operator+=<Idx>` (zip.hpp, lines 161-168): every
component is replaced by `component + n` (each sub-iterator's own stepping,
position + n in the position model). -/
def zipAddN (n : Nat) : List Int → List Int
  | [] => []
  | x :: xs => (x + (n : Int)) :: zipAddN n xs

/-- Prefix `zip_iterator::operator++` (zip.hpp, lines 116-118):
`return (*this += 1)`. -/
def zipIncOne (p : List Int) : List Int :=
  zipAddN 1 p

/-- `zip_iterator::operator--<Idx>` (zip.hpp, lines 170-177): every
component is decremented once. -/
def zipDecOne : List Int → List Int
  | [] => []
  | x :: xs => (x - 1) :: zipDecOne xs

/-- `zip_iterator::operator-=` (zip.hpp, lines 130-135): a loop of `n`
repeated whole-iterator decrements. -/
def zipSubN : Nat → List Int → List Int
  | 0, p => p
  | n + 1, p => zipSubN n (zipDecOne p)

/-- `zip_impl::begin` (zip.hpp, lines 238-251): the i-th component is
`container_i.begin()`, i.e. position 0, for every wrapped sequence. -/
def zipBegin (lens : List Nat) : List Int :=
  lens.map (fun _ => 0)

/-- `zip_impl::end` (zip.hpp, lines 253-266): the i-th component is
`container_i.end()`, i.e. the length of sequence i. -/
def zipEnd (lens : List Nat) : List Int :=
  lens.map (fun l : Nat => (l : Int))

/-- Counting runner for the zip ranged-for protocol over N sequences of the
given lengths: while the iterator state `p` is not `==` to the sentinel `q`,
count one visited position and advance every component by one
(`operator++`).  `none` means the fuel ran out first. -/
def zipCount (fuel : Nat) (p q : List Int) : Option Nat :=
  match fuel with
  | 0 => none
  | fuel + 1 =>
    if zipEq p q then some 0
    else (zipCount fuel (zipIncOne p) q).map (fun c => c + 1)

/-- Element-collecting runner for `zip` over two sequences `a` and `b`
(sub-iterators = positions `i`, `j`, begun at 0): while the zip iterator is
not `==` to `end()` (OR of the two per-index equalities), dereference both
sub-iterators into a tuple and advance both.  Dereferencing out of range is
undefined behaviour in the source and yields `none` here. -/
def zipRun2 (fuel : Nat) (a : List α) (b : List β) (i j : Nat) :
    Option (List (α × β)) :=
  match fuel with
  | 0 => none
  | fuel + 1 =>
    if i == a.length || j == b.length then some []
    else
      match a.get? i, b.get? j with
      | some x, some y => (zipRun2 fuel a b (i + 1) (j + 1)).map (fun L => (x, y) :: L)
      | _, _ => none

/-- `zip_iterator::operator*<Idx>` (zip.hpp, lines 179-188): the tuple whose
i-th element is the dereference of the i-th sub-iterator, in argument order
(head dereference prepended to the recursively built tail tuple).
Homogeneous model: sequence i is a list, its sub-iterator a position, and a
dereference is `List.get?` (out of range = `none`, undefined behaviour). -/
def zipDerefAll : List (List α) → List Nat → List (Option α)
  | c :: cs, q :: qs => c.get? q :: zipDerefAll cs qs
  | _, _ => []

/-- Writing through the k-th element of the tuple returned by
`zip_iterator::operator*`: the tuple holds references, so an assignment
through element k stores into sequence k at the position of sub-iterator k.
Embedded as a state update of the k-th wrapped sequence. -/
def zipWriteAt : List (List α) → Nat → Nat → α → List (List α)
  | [], _, _, _ => []
  | c :: cs, 0, q, v => c.set q v :: cs
  | c :: cs, k + 1, q, v => c :: zipWriteAt cs k q v

/-! ## Helper lemmas about the `Range` runners -/

/-- If the forward runner stops, the sentinel value was hit after some exact
number of `pace` steps. -/
theorem runFwd_some_imp_hit :
    ∀ (fuel : Nat) (it sen : RangeIterator) (L : List Int),
      runFwd fuel it sen = some L → ∃ k : Nat, it.val + k * it.pace = sen.val := by
  intro fuel
  induction fuel with
  | zero => intro it sen L h; simp [runFwd] at h
  | succ f ih =>
    intro it sen L h
    rw [runFwd] at h
    by_cases he : itEq it sen = true
    · refine ⟨0, ?_⟩
      have hv : it.val = sen.val := by simpa [itEq] using he
      simpa using hv
    · rw [if_neg he] at h
      obtain ⟨L2, hL2, -⟩ := Option.map_eq_some'.mp h
      obtain ⟨k, hk⟩ := ih _ _ _ hL2
      refine ⟨k + 1, ?_⟩
      simp only [itInc, itAdd] at hk
      push_cast at hk ⊢
      linear_combination hk

/-- With a non-zero pace and a sentinel value exactly `k` paces away, the
forward runner with fuel `k + 1` produces the `k` values
`v, v + p, …, v + (k-1)·p`. -/
theorem runFwd_exact :
    ∀ (k : Nat) (v p : Int), p ≠ 0 →
      runFwd (k + 1) ⟨v, p⟩ ⟨v + k * p, p⟩
        = some ((List.range k).map fun i : Nat => v + (i : Int) * p) := by
  intro k
  induction k with
  | zero => intro v p hp; simp [runFwd, itEq]
  | succ k ih =>
    intro v p hp
    have hne : itEq ⟨v, p⟩ ⟨v + (k + 1 : Nat) * p, p⟩ = false := by
      simp only [itEq, beq_eq_false_iff_ne, ne_eq]
      intro h
      have h0 : ((k : Int) + 1) * p = 0 := by push_cast at h; linarith
      rcases mul_eq_zero.mp h0 with h1 | h2
      · omega
      · exact hp h2
    rw [runFwd, hne]
    have hstep : itInc ⟨v, p⟩ = ⟨v + p, p⟩ := by
      simp [itInc, itAdd]
    have hsen : v + ((k : Nat) + 1 : Nat) * p = (v + p) + (k : Nat) * p := by
      push_cast; ring
    rw [if_neg (by simp), hstep, hsen, ih (v + p) p hp]
    rw [List.range_succ_eq_map, List.map_cons, List.map_map]
    have hfun : ((fun i : Nat => v + (i : Int) * p) ∘ Nat.succ)
        = fun i : Nat => (v + p) + (i : Int) * p := by
      funext i
      simp only [Function.comp_apply]
      push_cast
      ring
    rw [hfun]
    simp [itDeref]

/-- Driving with the decrement protocol is driving forward with the negated
pace: the sentinel's pace is irrelevant (equality compares values only). -/
theorem runBwd_eq_runFwd_neg :
    ∀ (fuel : Nat) (v p w q q2 : Int),
      runBwd fuel ⟨v, p⟩ ⟨w, q⟩ = runFwd fuel ⟨v, -p⟩ ⟨w, q2⟩ := by
  intro fuel
  induction fuel with
  | zero => intros; rfl
  | succ f ih =>
    intro v p w q q2
    rw [runBwd, runFwd]
    by_cases h : v = w
    · simp [itEq, h]
    · rw [if_neg (by simp [itEq, h]), if_neg (by simp [itEq, h])]
      have hd : itDec ⟨v, p⟩ = ⟨v - p, p⟩ := by simp [itDec, itSub]
      have hi : itInc ⟨v, -p⟩ = ⟨v - p, -p⟩ := by
        simp [itInc, itAdd]; ring
      rw [hd, hi, ih (v - p) p w q q2]
      rfl

/-- Reversing the forward value list `v, v+p, …, v+(k-1)p` gives the list
`e-p, e-2p, …` counted down from `e = v + k·p`. -/
theorem map_range_reverse (k : Nat) (v p : Int) :
    ((List.range k).map fun i : Nat => v + (i : Int) * p).reverse
      = (List.range k).map fun i : Nat => (v + (k : Int) * p - p) - (i : Int) * p := by
  apply List.ext_getElem
  · simp
  · intro i h1 h2
    simp only [List.length_map, List.length_range, List.length_reverse] at h1 h2
    rw [List.getElem_reverse]
    simp only [List.getElem_map, List.getElem_range, List.length_map, List.length_range]
    have hc : ((k - 1 - i : Nat) : Int) = (k : Int) - 1 - i := by omega
    rw [hc]
    ring

/-! ## Helper lemmas about the zip iterator operations -/

/-- `operator+=(n)` advances every component by `n`. -/
theorem zipAddN_map (n : Nat) :
    ∀ p : List Int, zipAddN n p = p.map fun x => x + (n : Int) := by
  intro p
  induction p with
  | nil => rfl
  | cons x xs ih => simp [zipAddN, ih]

/-- One whole-iterator decrement decrements every component. -/
theorem zipDecOne_map :
    ∀ p : List Int, zipDecOne p = p.map fun x => x - 1 := by
  intro p
  induction p with
  | nil => rfl
  | cons x xs ih => simp [zipDecOne, ih]

/-- `operator-=(n)` (n repeated decrements) subtracts `n` from every
component. -/
theorem zipSubN_map (n : Nat) :
    ∀ p : List Int, zipSubN n p = p.map fun x => x - (n : Int) := by
  induction n with
  | zero => intro p; simp [zipSubN]
  | succ n ih =>
    intro p
    rw [zipSubN, ih, zipDecOne_map, List.map_map]
    refine congrArg (fun f => List.map f p) ?_
    funext x
    simp only [Function.comp_apply]
    push_cast
    ring

/-- The OR-of-per-index-equalities test, characterised positionally: true
iff some index holds equal sub-iterators in both operands. -/
theorem zipEq_iff :
    ∀ p q : List Int,
      zipEq p q = true
        ↔ ∃ (i : Nat) (x y : Int), p.get? i = some x ∧ q.get? i = some y ∧ x = y := by
  intro p
  induction p with
  | nil =>
    intro q
    constructor
    · intro h; simp [zipEq] at h
    · rintro ⟨i, x, y, hx, -, -⟩; simp at hx
  | cons a as ih =>
    intro q
    cases q with
    | nil =>
      constructor
      · intro h; simp [zipEq] at h
      · rintro ⟨i, x, y, -, hy, -⟩; simp at hy
    | cons b bs =>
      rw [zipEq, Bool.or_eq_true, beq_iff_eq, ih bs]
      constructor
      · rintro (hab | ⟨i, x, y, hx, hy, hxy⟩)
        · exact ⟨0, a, b, rfl, rfl, hab⟩
        · exact ⟨i + 1, x, y, hx, hy, hxy⟩
      · rintro ⟨i, x, y, hx, hy, hxy⟩
        cases i with
        | zero =>
          left
          simp only [List.get?] at hx hy
          cases hx; cases hy; exact hxy
        | succ i => exact Or.inr ⟨i, x, y, hx, hy, hxy⟩

/-- The private AND-of-per-index-inequalities recursion computes exactly the
boolean complement of the OR-of-equalities recursion. -/
theorem zipNeRec_eq_not_zipEq :
    ∀ p q : List Int, zipNeRec p q = !(zipEq p q) := by
  intro p
  induction p with
  | nil => intro q; cases q <;> rfl
  | cons a as ih =>
    intro q
    cases q with
    | nil => rfl
    | cons b bs =>
      rw [zipNeRec, zipEq, ih bs, Bool.not_or]
      rfl

/-- After `k` joint increments from `begin()`, every component of the zip
iterator equals `k`; comparing against `end()` is the OR over the wrapped
sequences of "k equals that sequence's length". -/
theorem zipEq_const_end (k : Nat) :
    ∀ lens : List Nat,
      zipEq (lens.map fun _ => (k : Int)) (zipEnd lens)
        = lens.any fun l => k == l := by
  intro lens
  induction lens with
  | nil => rfl
  | cons l ls ih =>
    rw [zipEnd, List.map_cons, List.map_cons, zipEq, ← zipEnd, ih, List.any_cons]
    have hcast : ((k : Int) == (l : Int)) = (k == l) := by
      by_cases h : k = l <;> simp [h]
    rw [hcast]

/-- Core counting lemma for the zip ranged-for loop: starting with every
component at `k`, if `k + m` is the minimum of the wrapped lengths then the
loop visits exactly `m` more positions before the iterator compares equal
to `end()`. -/
theorem zipCount_min :
    ∀ (m fuel k : Nat), m < fuel → ∀ lens : List Nat,
      (k + m) ∈ lens → (∀ l ∈ lens, k + m ≤ l) →
      zipCount fuel (lens.map fun _ => (k : Int)) (zipEnd lens) = some m := by
  intro m
  induction m with
  | zero =>
    intro fuel k hf lens hmem _
    cases fuel with
    | zero => omega
    | succ f =>
      rw [zipCount, zipEq_const_end, if_pos]
      rw [List.any_eq_true]
      exact ⟨k, by simpa using hmem, by simp⟩
  | succ m ih =>
    intro fuel k hf lens hmem hle
    cases fuel with
    | zero => omega
    | succ f =>
      have hne : (lens.any fun l => k == l) = false := by
        rw [List.any_eq_false]
        intro l hl
        have := hle l hl
        simp only [beq_iff_eq]
        omega
      rw [zipCount, zipEq_const_end, hne, if_neg (by simp)]
      have hstep : zipIncOne (lens.map fun _ => (k : Int))
          = lens.map fun _ => ((k + 1 : Nat) : Int) := by
        rw [zipIncOne, zipAddN_map, List.map_map]
        refine congrArg (fun f => List.map f lens) ?_
        funext x
        simp only [Function.comp_apply]
        push_cast
        ring
      have hmem2 : (k + 1) + m ∈ lens := by
        have he : k + 1 + m = k + (m + 1) := by omega
        rw [he]
        exact hmem
      have hle2 : ∀ l ∈ lens, (k + 1) + m ≤ l := by
        intro l hl
        have := hle l hl
        omega
      rw [hstep, ih f (k + 1) (by omega) lens hmem2 hle2]
      rfl

/-- The two-sequence zip loop, started with both positions at `k` (both in
range) and enough fuel, collects exactly the elementwise pairs of the two
suffixes: the standard `List.zip` of the remainders. -/
theorem zipRun2_drop :
    ∀ (fuel : Nat) (k : Nat) (a : List α) (b : List β),
      k ≤ a.length → k ≤ b.length → min a.length b.length - k < fuel →
      zipRun2 fuel a b k k = some ((a.drop k).zip (b.drop k)) := by
  intro fuel
  induction fuel with
  | zero => intro k a b _ _ hf; omega
  | succ f ih =>
    intro k a b hka hkb hf
    rw [zipRun2]
    by_cases h1 : k = a.length
    · rw [if_pos (by simp [h1])]
      rw [h1, List.drop_length, List.zip_nil_left]
    · by_cases h2 : k = b.length
      · rw [if_pos (by simp [h2])]
        rw [h2, List.drop_length, List.zip_nil_right]
      · have hka2 : k < a.length := by omega
        have hkb2 : k < b.length := by omega
        rw [if_neg (by simp [h1, h2])]
        rw [List.get?_eq_getElem?, List.get?_eq_getElem?,
          List.getElem?_eq_getElem hka2, List.getElem?_eq_getElem hkb2]
        rw [ih (k + 1) a b (by omega) (by omega) (by omega)]
        rw [List.drop_eq_getElem_cons hka2, List.drop_eq_getElem_cons hkb2,
          List.zip_cons_cons]
        rfl

/-- Positional characterisation of `List.zip`. -/
theorem zip_get?_eq :
    ∀ (a : List α) (b : List β) (i : Nat),
      (a.zip b).get? i
        = (a.get? i).bind fun x => (b.get? i).map fun y => (x, y) := by
  intro a
  induction a with
  | nil => intro b i; simp
  | cons x xs ih =>
    intro b i
    cases b with
    | nil => simp
    | cons y ys =>
      cases i with
      | zero => simp [List.zip_cons_cons]
      | succ i => simpa [List.zip_cons_cons] using ih ys i

/-! ## Helper lemmas about zip dereference and write-through -/

/-- The dereference tuple, positionally: its k-th element is the dereference
of the k-th sub-iterator in the k-th wrapped sequence. -/
theorem zipDerefAll_get? :
    ∀ (conts : List (List α)) (pos : List Nat) (k : Nat),
      (zipDerefAll conts pos).get? k
        = (conts.get? k).bind fun c => (pos.get? k).map fun q => c.get? q := by
  intro conts
  induction conts with
  | nil => intro pos k; simp [zipDerefAll]
  | cons c cs ih =>
    intro pos k
    cases pos with
    | nil =>
      simp only [zipDerefAll, List.get?_nil, Option.map_none']
      cases (c :: cs).get? k <;> simp
    | cons q qs =>
      cases k with
      | zero => simp [zipDerefAll]
      | succ k => simpa [zipDerefAll] using ih qs k

/-- The dereference tuple has one component per wrapped sequence. -/
theorem zipDerefAll_length :
    ∀ (conts : List (List α)) (pos : List Nat),
      (zipDerefAll conts pos).length = min conts.length pos.length := by
  intro conts
  induction conts with
  | nil => intro pos; simp [zipDerefAll]
  | cons c cs ih =>
    intro pos
    cases pos with
    | nil => simp [zipDerefAll]
    | cons q qs => simp [zipDerefAll, ih qs]; omega

/-- Writing through tuple element `k` rewrites sequence `k` (at the given
position) and no other. -/
theorem zipWriteAt_get?_self :
    ∀ (conts : List (List α)) (k q : Nat) (v : α),
      (zipWriteAt conts k q v).get? k = (conts.get? k).map fun c => c.set q v := by
  intro conts
  induction conts with
  | nil => intro k q v; simp [zipWriteAt]
  | cons c cs ih =>
    intro k q v
    cases k with
    | zero => simp [zipWriteAt]
    | succ k => simpa [zipWriteAt] using ih k q v

/-- Writing through tuple element `k` leaves every other wrapped sequence
untouched. -/
theorem zipWriteAt_get?_other :
    ∀ (conts : List (List α)) (k q : Nat) (v : α) (j : Nat), j ≠ k →
      (zipWriteAt conts k q v).get? j = conts.get? j := by
  intro conts
  induction conts with
  | nil => intro k q v j _; simp [zipWriteAt]
  | cons c cs ih =>
    intro k q v j hj
    cases k with
    | zero =>
      cases j with
      | zero => omega
      | succ j => simp [zipWriteAt]
    | succ k =>
      cases j with
      | zero => simp [zipWriteAt]
      | succ j => simpa [zipWriteAt] using ih k q v j (by omega)

/-- Reading a list at the position just written returns the new value. -/
theorem set_get?_self :
    ∀ (c : List α) (q : Nat) (v : α), q < c.length → (c.set q v).get? q = some v := by
  intro c
  induction c with
  | nil => intro q v h; simp at h
  | cons x xs ih =>
    intro q v h
    cases q with
    | zero => rfl
    | succ q => simpa [List.set] using ih q v (by simpa using h)

/-! ## Claim theorems -/

/-- C2: for every two ZipIterators of the same arity, `operator==` returns
true iff at least one pair of corresponding sub-iterators is equal, and
`operator!=` is the exact logical complement of `operator==`: true iff every
corresponding pair of sub-iterators differs (the private AND-of-inequalities
recursion computes the same value). -/
theorem zip_equality_any_inequality_all :
    ∀ p q : List Int, p.length = q.length →
      (zipEq p q = true
        ↔ ∃ (i : Nat) (x y : Int), p.get? i = some x ∧ q.get? i = some y ∧ x = y) ∧
      (zipNe p q = !(zipEq p q)) ∧
      (zipNe p q = true
        ↔ ∀ (i : Nat) (x y : Int), p.get? i = some x → q.get? i = some y → x ≠ y) ∧
      (zipNeRec p q = zipNe p q) := by
  intro p q _
  refine ⟨zipEq_iff p q, rfl, ?_, by rw [zipNeRec_eq_not_zipEq]; rfl⟩
  constructor
  · intro h i x y hx hy hxy
    rw [zipNe, Bool.not_eq_true'] at h
    have htrue := (zipEq_iff p q).mpr ⟨i, x, y, hx, hy, hxy⟩
    rw [htrue] at h
    exact absurd h (by simp)
  · intro h
    rw [zipNe, Bool.not_eq_true']
    by_contra hne
    have htrue : zipEq p q = true := by
      revert hne
      cases zipEq p q <;> simp
    obtain ⟨i, x, y, hx, hy, hxy⟩ := (zipEq_iff p q).mp htrue
    exact h i x y hx hy hxy

/-- Witness for C2 at the concrete pair `[0, 7]`, `[1, 7]` (arity 2, second
components equal). -/
theorem zip_equality_any_inequality_all_witness :
    (zipEq [0, 7] [1, 7] = true
      ↔ ∃ (i : Nat) (x y : Int),
          List.get? [0, 7] i = some x ∧ List.get? [1, 7] i = some y ∧ x = y) ∧
    (zipNe [0, 7] [1, 7] = !(zipEq [0, 7] [1, 7])) ∧
    (zipNe [0, 7] [1, 7] = true
      ↔ ∀ (i : Nat) (x y : Int),
          List.get? [0, 7] i = some x → List.get? [1, 7] i = some y → x ≠ y) ∧
    (zipNeRec [0, 7] [1, 7] = zipNe [0, 7] [1, 7]) :=
  zip_equality_any_inequality_all [0, 7] [1, 7] (by decide)

/-- C6: ZipIterator prefix increment advances every sub-iterator by one step
unconditionally (no position constraint appears anywhere), `+= n` advances
every sub-iterator by `n`, and `-= n` — implemented as `n` repeated
whole-iterator decrements — subtracts `n` from every sub-iterator. -/
theorem zip_advance_componentwise :
    ∀ (p : List Int) (n : Nat),
      zipIncOne p = p.map (fun x => x + 1) ∧
      zipAddN n p = p.map (fun x => x + (n : Int)) ∧
      zipDecOne p = p.map (fun x => x - 1) ∧
      zipSubN n p = p.map (fun x => x - (n : Int)) := by
  intro p n
  refine ⟨?_, zipAddN_map n p, zipDecOne_map p, zipSubN_map n p⟩
  rw [zipIncOne, zipAddN_map]
  simp

/-- C9: on a RangeIterator, `+= n` and `-= n` are mutually inverse in either
order, prefix decrement is the exact inverse of prefix increment, and no
increment or decrement operation changes the `pace` field. -/
theorem rangeIterator_add_sub_cancel :
    ∀ (it : RangeIterator) (n : Nat),
      itSub (itAdd it n) n = it ∧ itAdd (itSub it n) n = it ∧
      itDec (itInc it) = it ∧ itInc (itDec it) = it ∧
      (itAdd it n).pace = it.pace ∧ (itSub it n).pace = it.pace ∧
      (itInc it).pace = it.pace ∧ (itDec it).pace = it.pace ∧
      (itPostInc it).2.pace = it.pace ∧ (itPostDec it).2.pace = it.pace := by
  intro it n
  cases it with
  | mk v p =>
    refine ⟨?_, ?_, ?_, ?_, rfl, rfl, rfl, rfl, rfl, rfl⟩ <;>
      simp [itAdd, itSub, itInc, itDec]

/-- C10: postfix increment returns an iterator holding the pre-increment
value and leaves the operand advanced by `pace`; postfix decrement returns
the pre-decrement value and leaves the operand decreased by `pace`. -/
theorem rangeIterator_postfix_semantics :
    ∀ it : RangeIterator,
      (itPostInc it).1 = it ∧ (itPostInc it).2.val = it.val + it.pace ∧
      (itPostInc it).2.pace = it.pace ∧
      (itPostDec it).1 = it ∧ (itPostDec it).2.val = it.val - it.pace ∧
      (itPostDec it).2.pace = it.pace := by
  intro it
  refine ⟨rfl, ?_, rfl, rfl, ?_, rfl⟩ <;>
    simp [itPostInc, itPostDec, itInc, itDec, itAdd, itSub]

/-- C3: the `begin()/end()/++/!=` iteration of an IntegerRange terminates
exactly when the iterator value becomes equal to `end`, i.e. iff there is a
`k ≥ 0` with `start + k·pace = end`; when `end - start` is not an exact
multiple of `pace`, or the sign of `pace` disagrees with the direction from
`start` to `end`, the value steps over the sentinel without ever equaling it
and the iteration does not terminate. -/
theorem range_termination_exact_equality :
    ∀ s e p : Int,
      ((∃ fuel L,
          runFwd fuel (rangeBegin (range s e p)) (rangeEnd (range s e p)) = some L)
        ↔ ∃ k : Nat, s + k * p = e) ∧
      ((¬ (p ∣ (e - s)) ∨ (0 < p ∧ e < s) ∨ (p < 0 ∧ s < e)) →
        ∀ fuel, runFwd fuel (rangeBegin (range s e p)) (rangeEnd (range s e p)) = none) := by
  intro s e p
  have hmain : (∃ fuel L,
      runFwd fuel (rangeBegin (range s e p)) (rangeEnd (range s e p)) = some L)
        ↔ ∃ k : Nat, s + k * p = e := by
    constructor
    · rintro ⟨fuel, L, hL⟩
      obtain ⟨k, hk⟩ := runFwd_some_imp_hit fuel _ _ L hL
      exact ⟨k, hk⟩
    · rintro ⟨k, hk⟩
      by_cases hp : p = 0
      · subst hp
        have hse : s = e := by
          have : (k : Int) * 0 = 0 := by ring
          omega
        refine ⟨1, [], ?_⟩
        simp [runFwd, rangeBegin, rangeEnd, range, itEq, hse]
      · obtain h := runFwd_exact k s p hp
        rw [hk] at h
        exact ⟨k + 1, _, h⟩
  refine ⟨hmain, ?_⟩
  intro hcond fuel
  cases hF : runFwd fuel (rangeBegin (range s e p)) (rangeEnd (range s e p)) with
  | none => rfl
  | some L =>
    exfalso
    obtain ⟨k, hk⟩ := hmain.mp ⟨fuel, L, hF⟩
    have hk0 : (0 : Int) ≤ (k : Int) := Int.natCast_nonneg k
    rcases hcond with hdvd | ⟨hp, hes⟩ | ⟨hp, hse⟩
    · exact hdvd ⟨k, by rw [← hk]; ring⟩
    · have : (0 : Int) ≤ (k : Int) * p := mul_nonneg hk0 hp.le
      linarith
    · have : (k : Int) * p ≤ 0 := mul_nonpos_of_nonneg_of_nonpos hk0 hp.le
      linarith

/-- Witness for C3: `range(0, 5, 2)` (a non-multiple step) never reaches its
sentinel — the runner reports no termination at fuel 7. -/
theorem range_termination_exact_equality_witness :
    runFwd 7 (rangeBegin (range 0 5 2)) (rangeEnd (range 0 5 2)) = none :=
  (range_termination_exact_equality 0 5 2).2
    (Or.inl (by rintro ⟨c, hc⟩; omega)) 7

/-- C4: for integers `start < end`, `range(start, end, 1)` yields exactly
`end - start` values, strictly increasing, first `start` and last `end - 1`;
concretely `range(5)` yields `[0, 1, 2, 3, 4]` and `range(0, 10, 2)` yields
`[0, 2, 4, 6, 8]`. -/
theorem range_step_one_enumerates :
    (∀ s e : Int, s < e →
      ∃ L, runFwd ((e - s).toNat + 1)
            (rangeBegin (range s e 1)) (rangeEnd (range s e 1)) = some L ∧
        L.length = (e - s).toNat ∧ L.Pairwise (· < ·) ∧
        L.head? = some s ∧ L.getLast? = some (e - 1)) ∧
    runFwd 6 (rangeBegin (rangeFromZero 5)) (rangeEnd (rangeFromZero 5))
      = some [0, 1, 2, 3, 4] ∧
    runFwd 6 (rangeBegin (range 0 10 2)) (rangeEnd (range 0 10 2))
      = some [0, 2, 4, 6, 8] := by
  refine ⟨?_, by decide, by decide⟩
  intro s e hse
  obtain ⟨d, hd⟩ : ∃ d, (e - s).toNat = d + 1 := ⟨(e - s).toNat - 1, by omega⟩
  have hcast : ((d + 1 : Nat) : Int) = e - s := by omega
  obtain h := runFwd_exact (d + 1) s 1 one_ne_zero
  have hsen : s + ((d + 1 : Nat) : Int) * 1 = e := by rw [hcast]; ring
  rw [hsen] at h
  rw [hd]
  refine ⟨_, h, ?_, ?_, ?_, ?_⟩
  · simp
  · rw [List.pairwise_map]
    refine List.Pairwise.imp ?_ (List.pairwise_lt_range _)
    intro a b hab
    have hab2 : (a : Int) < b := by exact_mod_cast hab
    simpa using hab2
  · rw [List.range_succ_eq_map, List.map_cons]
    simp
  · rw [List.range_succ, List.map_append]
    simp only [List.map_cons, List.map_nil]
    rw [List.getLast?_concat]
    have hlast : s + (d : Int) * 1 = e - 1 := by push_cast at hcast; linarith
    rw [hlast]

/-- Witness for C4 at `start = 0`, `end = 3`. -/
theorem range_step_one_enumerates_witness :
    ∃ L, runFwd (((3 : Int) - 0).toNat + 1)
          (rangeBegin (range 0 3 1)) (rangeEnd (range 0 3 1)) = some L ∧
      L.length = ((3 : Int) - 0).toNat ∧ L.Pairwise (· < ·) ∧
      L.head? = some 0 ∧ L.getLast? = some ((3 : Int) - 1) :=
  range_step_one_enumerates.1 0 3 (by decide)

/-- C5 counterexample: on `range(0, 3, 1)` the forward iteration yields
`[0, 1, 2]`, but the `rbegin()/rend()` pair driven forward by the increment
protocol never produces the reverse `[2, 1, 0]`: `rbegin()` is at value 2
and `rend()` at value -1, and incrementing moves away from the sentinel, so
no amount of fuel makes the loop stop (let alone yield the reverse). -/
theorem rbegin_forward_increment_stalls :
    runFwd 4 (rangeBegin (range 0 3 1)) (rangeEnd (range 0 3 1)) = some [0, 1, 2] ∧
    ¬ ∃ fuel, runFwd fuel (rangeRbegin (range 0 3 1)) (rangeRend (range 0 3 1))
        = some [2, 1, 0] := by
  refine ⟨by decide, ?_⟩
  rintro ⟨fuel, h⟩
  obtain ⟨k, hk⟩ := runFwd_some_imp_hit fuel _ _ _ h
  simp [rangeRbegin, rangeRend, rangeBegin, rangeEnd, range, itDec, itSub] at hk
  omega

/-- C5 (amended): for every IntegerRange whose sentinel is exactly `k` paces
from `start` (`pace ≠ 0`), `rbegin()` equals `--end()` and `rend()` equals
`--begin()`, and the pair `rbegin()/rend()`, driven by the decrement
protocol, yields exactly the reverse of the forward `begin()/end()` value
sequence. -/
theorem rbegin_rend_reverse_by_decrement :
    ∀ (s p : Int) (k : Nat), p ≠ 0 →
      rangeRbegin (range s (s + k * p) p) = itDec (rangeEnd (range s (s + k * p) p)) ∧
      rangeRend (range s (s + k * p) p) = itDec (rangeBegin (range s (s + k * p) p)) ∧
      ∃ L, runFwd (k + 1) (rangeBegin (range s (s + k * p) p))
              (rangeEnd (range s (s + k * p) p)) = some L ∧
        runBwd (k + 1) (rangeRbegin (range s (s + k * p) p))
              (rangeRend (range s (s + k * p) p)) = some L.reverse := by
  intro s p k hp
  refine ⟨rfl, rfl, ?_⟩
  obtain hF := runFwd_exact k s p hp
  refine ⟨_, hF, ?_⟩
  have hrb : rangeRbegin (range s (s + k * p) p)
      = (⟨s + (k : Int) * p - p, p⟩ : RangeIterator) := by
    simp [rangeRbegin, rangeEnd, range, itDec, itSub]
  have hre : rangeRend (range s (s + k * p) p)
      = (⟨s - p, p⟩ : RangeIterator) := by
    simp [rangeRend, rangeBegin, range, itDec, itSub]
  rw [hrb, hre]
  rw [runBwd_eq_runFwd_neg (k + 1) (s + (k : Int) * p - p) p (s - p) p (-p)]
  have hsen : (⟨s - p, -p⟩ : RangeIterator)
      = ⟨(s + (k : Int) * p - p) + (k : Int) * (-p), -p⟩ := by
    refine congrArg (fun x => RangeIterator.mk x (-p)) ?_
    ring
  rw [hsen, runFwd_exact k (s + (k : Int) * p - p) (-p) (neg_ne_zero.mpr hp)]
  rw [map_range_reverse k s p]
  refine congrArg some ?_
  refine congrArg (fun f => List.map f (List.range k)) ?_
  funext i
  ring

/-- Witness for the amended C5 at `range(0, 3, 1)` (`s = 0`, `p = 1`,
`k = 3`). -/
theorem rbegin_rend_reverse_by_decrement_witness :
    rangeRbegin (range 0 ((0 : Int) + (3 : Nat) * 1) 1)
        = itDec (rangeEnd (range 0 ((0 : Int) + (3 : Nat) * 1) 1)) ∧
    rangeRend (range 0 ((0 : Int) + (3 : Nat) * 1) 1)
        = itDec (rangeBegin (range 0 ((0 : Int) + (3 : Nat) * 1) 1)) ∧
    ∃ L, runFwd ((3 : Nat) + 1) (rangeBegin (range 0 ((0 : Int) + (3 : Nat) * 1) 1))
            (rangeEnd (range 0 ((0 : Int) + (3 : Nat) * 1) 1)) = some L ∧
      runBwd ((3 : Nat) + 1) (rangeRbegin (range 0 ((0 : Int) + (3 : Nat) * 1) 1))
            (rangeRend (range 0 ((0 : Int) + (3 : Nat) * 1) 1)) = some L.reverse :=
  rbegin_rend_reverse_by_decrement 0 1 3 (by decide)

/-- C1: iterating a ZipView from `begin()` to `end()` visits exactly
`min(length(seq_1), …, length(seq_N))` positions (here `m` characterised as
the minimum of the wrapped lengths), and at every visited step `k < m` every
sub-iterator sits strictly before its own end, so no sub-iterator of the
shortest sequence is dereferenced past its last valid position; in
particular zip over a 3-element and a 5-element sequence yields exactly 3
tuples, tuple `i` being `(seqA[i], seqB[i])` (the two-sequence runner
returns `none` on any out-of-range dereference, so its success also
certifies that indices 3 and 4 of the longer sequence are never
dereferenced). -/
theorem zip_iterates_min_length :
    (∀ (lens : List Nat) (m : Nat), m ∈ lens → (∀ l ∈ lens, m ≤ l) →
      (∀ fuel, m < fuel → zipCount fuel (zipBegin lens) (zipEnd lens) = some m) ∧
      (∀ k, k < m → ∀ l ∈ lens, k < l)) ∧
    (∀ {α β : Type} (a : List α) (b : List β), a.length = 3 → b.length = 5 →
      ∃ L, zipRun2 4 a b 0 0 = some L ∧ L.length = 3 ∧
        ∀ (i : Nat) (x : α) (y : β), a.get? i = some x → b.get? i = some y →
          L.get? i = some (x, y)) := by
  constructor
  · intro lens m hmem hle
    constructor
    · intro fuel hf
      have hb : zipBegin lens = lens.map fun _ => ((0 : Nat) : Int) := by
        simp [zipBegin]
      rw [hb]
      refine zipCount_min m fuel 0 hf lens ?_ ?_
      · simpa using hmem
      · simpa using hle
    · intro k hk l hl
      have := hle l hl
      omega
  · intro α β a b ha hb
    have h := zipRun2_drop 4 0 a b (by omega) (by omega) (by rw [ha, hb]; decide)
    simp only [List.drop_zero] at h
    refine ⟨_, h, ?_, ?_⟩
    · rw [List.length_zip, ha, hb]
      rfl
    · intro i x y hx hy
      rw [zip_get?_eq, hx, hy]
      rfl

/-- Witness for C1: lengths `[3, 5]` with minimum 3, and the concrete
sequences `[10, 20, 30]` and `[1, 2, 3, 4, 5]`. -/
theorem zip_iterates_min_length_witness :
    zipCount 4 (zipBegin [3, 5]) (zipEnd [3, 5]) = some 3 ∧
    (∃ L, zipRun2 4 [(10 : Int), 20, 30] [(1 : Int), 2, 3, 4, 5] 0 0 = some L ∧
      L.length = 3 ∧
      ∀ (i : Nat) (x y : Int),
        List.get? [(10 : Int), 20, 30] i = some x →
        List.get? [(1 : Int), 2, 3, 4, 5] i = some y →
        L.get? i = some (x, y)) :=
  ⟨(zip_iterates_min_length.1 [3, 5] 3 (by decide) (by decide)).1 4 (by decide),
   zip_iterates_min_length.2 [(10 : Int), 20, 30] [(1 : Int), 2, 3, 4, 5]
     (by decide) (by decide)⟩

/-- C7: dereferencing a ZipIterator returns the tuple whose i-th element is
the dereference of the i-th sub-iterator, in argument order (one component
per wrapped sequence); and the tuple has reference semantics: assigning
through element `k` of the tuple mutates wrapped sequence `k` at
sub-iterator `k`'s position — observable through a subsequent dereference —
and touches no other sequence. -/
theorem zip_deref_tuple_reference_semantics :
    ∀ (conts : List (List Int)) (pos : List Nat),
      (zipDerefAll conts pos).length = min conts.length pos.length ∧
      (∀ (k : Nat) (c : List Int) (q : Nat),
        conts.get? k = some c → pos.get? k = some q →
        (zipDerefAll conts pos).get? k = some (c.get? q)) ∧
      (∀ (k : Nat) (c : List Int) (q : Nat) (v : Int),
        conts.get? k = some c → pos.get? k = some q → q < c.length →
        (zipDerefAll (zipWriteAt conts k q v) pos).get? k = some (some v) ∧
        (∀ j, j ≠ k → (zipDerefAll (zipWriteAt conts k q v) pos).get? j
            = (zipDerefAll conts pos).get? j)) := by
  intro conts pos
  refine ⟨zipDerefAll_length conts pos, ?_, ?_⟩
  · intro k c q hc hq
    rw [zipDerefAll_get?, hc, hq]
    rfl
  · intro k c q v hc hq hlt
    constructor
    · rw [zipDerefAll_get?, zipWriteAt_get?_self, hc, hq]
      simp only [Option.map_some', Option.some_bind]
      rw [show (c.set q v).get? q = some v from set_get?_self c q v hlt]
    · intro j hj
      rw [zipDerefAll_get?, zipDerefAll_get?, zipWriteAt_get?_other conts k q v j hj]

/-- Witness for C7: two sequences `[1, 2]` and `[3, 4, 5]` at positions
`[1, 2]`; dereference reads `(2, 5)`, and writing 9 through the first tuple
element is visible in the first sequence and leaves the second alone. -/
theorem zip_deref_tuple_reference_semantics_witness :
    (zipDerefAll [[1, 2], [3, 4, 5]] [1, 2]).get? 0 = some (List.get? [(1 : Int), 2] 1) ∧
    (zipDerefAll (zipWriteAt [[1, 2], [3, 4, 5]] 0 1 9) [1, 2]).get? 0
        = some (some (9 : Int)) ∧
    (zipDerefAll (zipWriteAt [[1, 2], [3, 4, 5]] 0 1 9) [1, 2]).get? 1
        = (zipDerefAll [[(1 : Int), 2], [3, 4, 5]] [1, 2]).get? 1 :=
  ⟨(zip_deref_tuple_reference_semantics [[1, 2], [3, 4, 5]] [1, 2]).2.1 0 [1, 2] 1
      rfl rfl,
   ((zip_deref_tuple_reference_semantics [[1, 2], [3, 4, 5]] [1, 2]).2.2 0 [1, 2] 1 9
      rfl rfl (by decide)).1,
   ((zip_deref_tuple_reference_semantics [[1, 2], [3, 4, 5]] [1, 2]).2.2 0 [1, 2] 1 9
      rfl rfl (by decide)).2 1 (by decide)⟩

end util
